import Mathlib

/-!
Shallow embedding of the normalization-and-resolution engine of the
spacy_matching repository, together with theorems settling the frozen
claims about it.  Strings are modelled as `List Char`; the pandas
pipelines become explicit list transformations; the external fuzzy
matching capability is a function parameter.
-/

namespace SpacyMatching

attribute [local semireducible] Rat.mul Rat.ofScientific Rat.add Rat.sub Rat.inv

/-- Characters treated as whitespace by Python `str.split` / `str.strip`
and by the regex class `\s` (the ASCII fragment, which is the only one
this code exercises). -/
def isSpaceC (c : Char) : Bool :=
  c = ' ' || c = '\t' || c = '\n' || c = '\x0d' || c = '\x0b' || c = '\x0c'

/-- Word characters for the regex word boundary `\b` (`\w`): ASCII
alphanumerics, the underscore, and the German letters occurring in this
code's string data. -/
def isWordC (c : Char) : Bool :=
  c.isAlphanum || c = '_' || c = 'ä' || c = 'ö' || c = 'ü' || c = 'ß' ||
    c = 'Ä' || c = 'Ö' || c = 'Ü'

/-- Lists of characters, the model of Python strings. -/
abbrev Chars := List Char

/-- Case-insensitive literal match: `litCI pat s` consumes `pat` (written
lowercase) from the front of `s`, comparing lowercased characters, and
returns the remaining suffix of `s` on success. -/
def litCI : Chars → Chars → Option Chars
  | [], s => some s
  | _ :: _, [] => none
  | p :: ps, c :: cs => if p = c.toLower then litCI ps cs else none

/-- Try an ordered list of literal alternatives at the current position and
return the length of the first one that matches — Python regex alternation
tries branches left to right at each position. -/
def tryAlts (alts : List Chars) (s : Chars) : Option Nat :=
  match alts with
  | [] => none
  | a :: rest =>
    match litCI a s with
    | some _ => some a.length
    | none => tryAlts rest s

/-- Fuel-driven worker for `subScan`.  Every step consumes at least one
input character, so fuel equal to the input length always suffices; the
fuel only makes the recursion structural. -/
def subScanF (tryM : Option Char → Chars → Option Nat) (repl : Chars) :
    Nat → Option Char → Chars → Chars
  | 0, _, s => s
  | _ + 1, _, [] => []
  | fuel + 1, prev, c :: cs =>
    match tryM prev (c :: cs) with
    | some n => repl ++ subScanF tryM repl fuel (some ((c :: cs).getD (n - 1) c)) (cs.drop (n - 1))
    | none => c :: subScanF tryM repl fuel (some c) cs

/-- One pass of regex substitution as Python `re.sub` performs it: scan the
original string left to right; at each position run the matcher (which may
inspect the previous original character, for `\b`); on a match of length
`n` emit the replacement and resume scanning right after the matched span. -/
def subScan (tryM : Option Char → Chars → Option Nat) (repl : Chars)
    (prev : Option Char) (s : Chars) : Chars :=
  subScanF tryM repl s.length prev s

/-- The alternatives of the `find_5FU` pattern, in source order. -/
def fuAlts : List Chars :=
  ["5 fu".toList, "5fu".toList, "5-fu".toList, "5_fu".toList, "fluoruracil".toList,
   "flourouracil".toList, "5-fluoruuracil".toList, "5-fluoro-uracil".toList,
   "5-fluoruuracil".toList, "5-fluoruracil".toList, "floururacil".toList,
   "5-fluorounacil".toList, "flourouraci".toList, "5-fluourouracil".toList]

/-- `find_5FU` from `src/utils.py`: rewrite every 5-FU spelling variant to
`fluorouracil`, case-insensitively. -/
def find5FU (s : Chars) : Chars :=
  subScan (fun _ t => tryAlts fuAlts t) "fluorouracil".toList none s

/-- The alternatives of `Gemcibatin(?:e)?(?: Mono)?` in the order a greedy
regex engine tries them. -/
def gemAlts : List Chars :=
  ["gemcibatine mono".toList, "gemcibatine".toList,
   "gemcibatin mono".toList, "gemcibatin".toList]

/-- `find_gemcitabin` from `src/utils.py`: rewrite the enumerated Gemcitabin
typos to `gemcitabin`, case-insensitively. -/
def findGemcitabin (s : Chars) : Chars :=
  subScan (fun _ t => tryAlts gemAlts t) "gemcitabin".toList none s

/-- `\b` before the match: the previous character is absent or non-word. -/
def boundaryBefore : Option Char → Bool
  | none => true
  | some c => !isWordC c

/-- `\b` after the match: the next character is absent or non-word. -/
def boundaryAfter : Chars → Bool
  | [] => true
  | c :: _ => !isWordC c

/-- Matcher of `\b(Calciumfolinat)\b` at the current position. -/
def tryCalc (prev : Option Char) (s : Chars) : Option Nat :=
  if boundaryBefore prev then
    match litCI "calciumfolinat".toList s with
    | some rest => if boundaryAfter rest then some 14 else none
    | none => none
  else none

/-- `calciumfolinat_to_folin` from `src/utils.py`. -/
def calciumfolinatToFolin (s : Chars) : Chars :=
  subScan tryCalc "folinsäure".toList none s

/-- Helper for the `nab[\s\-]?Paclitaxel` matcher: try `Paclitaxel\b`
directly at `rest`, reporting total matched length `total` on success. -/
def tryPacBare (total : Nat) (rest : Chars) : Option Nat :=
  match litCI "paclitaxel".toList rest with
  | some rest2 => if boundaryAfter rest2 then some total else none
  | none => none

/-- Matcher of `\bnab[\s\-]?Paclitaxel\b` at the current position, with the
greedy optional separator and its backtracking. -/
def tryPac (prev : Option Char) (s : Chars) : Option Nat :=
  if boundaryBefore prev then
    match litCI "nab".toList s with
    | some rest =>
      match rest with
      | [] => none
      | c :: rest2 =>
        if isSpaceC c || c = '-' then
          match tryPacBare 14 rest2 with
          | some n => some n
          | none => tryPacBare 13 rest
        else tryPacBare 13 rest
    | none => none
  else none

/-- `find_Paclitaxel_nab` from `src/utils.py`: reorder `nab-Paclitaxel`
(and variants) to `Paclitaxel nab`. -/
def findPaclitaxelNab (s : Chars) : Chars :=
  subScan tryPac "Paclitaxel nab".toList none s

/-- Python `str.split()`: split on whitespace runs, dropping empty pieces. -/
def splitWs : Chars → List Chars
  | [] => []
  | [c] => if isSpaceC c then [] else [[c]]
  | c :: d :: cs =>
    if isSpaceC c then splitWs (d :: cs)
    else if isSpaceC d then [c] :: splitWs (d :: cs)
    else
      match splitWs (d :: cs) with
      | [] => [[c]]
      | w :: ws => (c :: w) :: ws

/-- Python `" ".join`. -/
def joinSpace : List Chars → Chars
  | [] => []
  | [w] => w
  | w :: w' :: ws => w ++ ' ' :: joinSpace (w' :: ws)

/-- `remove_short_words` from `src/utils.py`: keep only words of length at
least 3 and rejoin them with single spaces. -/
def removeShortWords (s : Chars) : Chars :=
  joinSpace ((splitWs s).filter (fun w => decide (3 ≤ w.length)))

/-- Python `str.strip()`: drop leading and trailing whitespace. -/
def stripWs (s : Chars) : Chars :=
  ((s.dropWhile isSpaceC).reverse.dropWhile isSpaceC).reverse

/-- The full preprocessing pipeline of `preprocess_data` in `src/utils.py`
applied to one already-prepared string: the four domain rewrites in source
order, then short-word removal, then the final whitespace strip. -/
def normalize (s : Chars) : Chars :=
  stripWs (removeShortWords (calciumfolinatToFolin (findPaclitaxelNab
    (findGemcitabin (find5FU s)))))

/-- A word as produced by `splitWs`: nonempty and whitespace-free. -/
def goodWord (w : Chars) : Prop :=
  w ≠ [] ∧ ∀ c ∈ w, isSpaceC c = false

theorem splitWs_cons_space {d : Char} (hd : isSpaceC d = true) (t : Chars) :
    splitWs (d :: t) = splitWs t := by
  cases t with
  | nil => simp [splitWs, hd]
  | cons e t' => simp [splitWs, hd]

theorem splitWs_cc_break {c d : Char} (hc : isSpaceC c = false) (hd : isSpaceC d = true)
    (cs : Chars) : splitWs (c :: d :: cs) = [c] :: splitWs (d :: cs) := by
  simp [splitWs, hc, hd]

theorem splitWs_cc_glue_nil {c d : Char} (hc : isSpaceC c = false) (hd : isSpaceC d = false)
    {cs : Chars} (hsp : splitWs (d :: cs) = []) : splitWs (c :: d :: cs) = [[c]] := by
  simp [splitWs, hc, hd, hsp]

theorem splitWs_cc_glue_cons {c d : Char} (hc : isSpaceC c = false) (hd : isSpaceC d = false)
    {cs w : Chars} {ws : List Chars} (hsp : splitWs (d :: cs) = w :: ws) :
    splitWs (c :: d :: cs) = (c :: w) :: ws := by
  simp [splitWs, hc, hd, hsp]

theorem splitWs_one {c : Char} (hc : isSpaceC c = false) : splitWs [c] = [[c]] := by
  simp [splitWs, hc]

theorem goodWord_splitWs : ∀ (s : Chars), ∀ w ∈ splitWs s, goodWord w := by
  intro s
  induction s with
  | nil => intro w hw; simp [splitWs] at hw
  | cons c cs ih =>
    intro w hw
    cases cs with
    | nil =>
      cases hc : isSpaceC c with
      | true => simp [splitWs, hc] at hw
      | false =>
        rw [splitWs_one hc] at hw
        simp at hw
        subst hw
        exact ⟨by simp, by simpa using hc⟩
    | cons d cs' =>
      cases hc : isSpaceC c with
      | true =>
        rw [splitWs_cons_space hc] at hw
        exact ih w hw
      | false =>
        cases hd : isSpaceC d with
        | true =>
          rw [splitWs_cc_break hc hd] at hw
          rcases List.mem_cons.mp hw with hw | hw
          · subst hw; exact ⟨by simp, by simpa using hc⟩
          · exact ih w hw
        | false =>
          cases hsp : splitWs (d :: cs') with
          | nil =>
            rw [splitWs_cc_glue_nil hc hd hsp] at hw
            simp at hw
            subst hw
            exact ⟨by simp, by simpa using hc⟩
          | cons w' ws' =>
            rw [splitWs_cc_glue_cons hc hd hsp] at hw
            rcases List.mem_cons.mp hw with hw | hw
            · subst hw
              have hgw' : goodWord w' := ih w' (by rw [hsp]; exact List.mem_cons_self _ _)
              refine ⟨by simp, ?_⟩
              intro a ha
              rcases List.mem_cons.mp ha with ha | ha
              · subst ha; simpa using hc
              · exact hgw'.2 a ha
            · exact ih w (by rw [hsp]; exact List.mem_cons_of_mem _ hw)

theorem splitWs_single (w : Chars) (hg : goodWord w) : splitWs w = [w] := by
  induction w with
  | nil => exact absurd rfl hg.1
  | cons c cs ih =>
    have hc : isSpaceC c = false := hg.2 c (List.mem_cons_self _ _)
    cases cs with
    | nil => exact splitWs_one hc
    | cons d cs' =>
      have hd : isSpaceC d = false := hg.2 d (by simp)
      have hih := ih ⟨by simp, fun a ha => hg.2 a (List.mem_cons_of_mem _ ha)⟩
      exact splitWs_cc_glue_cons hc hd hih

theorem splitWs_good_append (w : Chars) (hg : goodWord w) (t : Chars) :
    splitWs (w ++ ' ' :: t) = w :: splitWs t := by
  induction w with
  | nil => exact absurd rfl hg.1
  | cons c cs ih =>
    have hc : isSpaceC c = false := hg.2 c (List.mem_cons_self _ _)
    cases cs with
    | nil =>
      rw [List.singleton_append,
        splitWs_cc_break hc (by simp [isSpaceC]),
        splitWs_cons_space (by simp [isSpaceC])]
    | cons d cs' =>
      have hd : isSpaceC d = false := hg.2 d (by simp)
      have hih := ih ⟨by simp, fun a ha => hg.2 a (List.mem_cons_of_mem _ ha)⟩
      rw [List.cons_append] at hih ⊢
      exact splitWs_cc_glue_cons hc hd hih

theorem splitWs_joinSpace : ∀ (ws : List Chars), (∀ w ∈ ws, goodWord w) →
    splitWs (joinSpace ws) = ws := by
  intro ws
  induction ws with
  | nil => intro _; rfl
  | cons w ws' ih =>
    intro h
    cases ws' with
    | nil => exact splitWs_single w (h w (List.mem_cons_self _ _))
    | cons w' ws'' =>
      rw [joinSpace, splitWs_good_append w (h w (List.mem_cons_self _ _)),
        ih (fun a ha => h a (List.mem_cons_of_mem _ ha))]

theorem joinSpace_append_single : ∀ (as : List Chars) (b : Chars), as ≠ [] →
    joinSpace (as ++ [b]) = joinSpace as ++ ' ' :: b := by
  intro as
  induction as with
  | nil => intro b h; exact absurd rfl h
  | cons a as' ih =>
    intro b _
    cases as' with
    | nil => rfl
    | cons a' as'' =>
      have hih := ih b (by simp)
      rw [List.cons_append] at hih
      have hgoal : ((a :: a' :: as'') ++ [b] : List Chars) = a :: a' :: (as'' ++ [b]) := by
        simp
      rw [hgoal]
      simp only [joinSpace]
      rw [hih]
      simp [List.append_assoc]

theorem joinSpace_reverse : ∀ (ws : List Chars),
    (joinSpace ws).reverse = joinSpace ((ws.map List.reverse).reverse) := by
  intro ws
  induction ws with
  | nil => rfl
  | cons w ws' ih =>
    cases ws' with
    | nil => simp [joinSpace]
    | cons w' ws'' =>
      have hne : (((w' :: ws'').map List.reverse).reverse : List (List Char)) ≠ [] := by simp
      rw [joinSpace, List.reverse_append, List.reverse_cons, ih]
      conv_rhs => rw [List.map_cons, List.reverse_cons, joinSpace_append_single _ _ hne]
      simp [List.append_assoc]

theorem dropWhile_joinSpace_good (ws : List Chars) (h : ∀ w ∈ ws, goodWord w) :
    (joinSpace ws).dropWhile isSpaceC = joinSpace ws := by
  cases ws with
  | nil => rfl
  | cons w ws' =>
    have hg := h w (List.mem_cons_self _ _)
    cases hw : w with
    | nil => exact absurd hw hg.1
    | cons c rest =>
      have hc : isSpaceC c = false := by rw [hw] at hg; exact hg.2 c (by simp)
      cases ws' with
      | nil => simp [joinSpace, hw, List.dropWhile_cons, hc]
      | cons w' ws'' => simp [joinSpace, hw, List.dropWhile_cons, hc]

theorem stripWs_joinSpace (ws : List Chars) (h : ∀ w ∈ ws, goodWord w) :
    stripWs (joinSpace ws) = joinSpace ws := by
  have hrev : ∀ w ∈ (ws.map List.reverse).reverse, goodWord w := by
    intro w hw
    rw [List.mem_reverse, List.mem_map] at hw
    obtain ⟨a, ha, rfl⟩ := hw
    obtain ⟨h1, h2⟩ := h a ha
    exact ⟨by simpa using h1, fun c hc => h2 c (List.mem_reverse.mp hc)⟩
  rw [stripWs, dropWhile_joinSpace_good ws h, joinSpace_reverse,
    dropWhile_joinSpace_good _ hrev, ← joinSpace_reverse, List.reverse_reverse]

theorem goodWord_filtered (s : Chars) :
    ∀ w ∈ (splitWs s).filter (fun w => decide (3 ≤ w.length)), goodWord w :=
  fun w hw => goodWord_splitWs s w (List.mem_of_mem_filter hw)

theorem stripWs_removeShortWords (s : Chars) :
    stripWs (removeShortWords s) = removeShortWords s :=
  stripWs_joinSpace _ (goodWord_filtered s)

theorem removeShortWords_idem (s : Chars) :
    removeShortWords (removeShortWords s) = removeShortWords s := by
  rw [removeShortWords, removeShortWords,
    splitWs_joinSpace _ (goodWord_filtered s),
    List.filter_eq_self.mpr (fun a ha => (List.mem_filter.mp ha).2)]

theorem normalize_eq_removeShortWords (s : Chars) :
    normalize s = removeShortWords (calciumfolinatToFolin (findPaclitaxelNab
      (findGemcitabin (find5FU s)))) := by
  rw [normalize, stripWs_removeShortWords]

/-- Claim C2, as amended: the preprocessing pipeline is idempotent on every
input whose normalized form is left unchanged by the four domain rewrites;
the unconditional statement is refuted by `claim_C2_counterexample`. -/
theorem claim_C2 (s : Chars)
    (h5 : find5FU (normalize s) = normalize s)
    (hg : findGemcitabin (normalize s) = normalize s)
    (hp : findPaclitaxelNab (normalize s) = normalize s)
    (hc : calciumfolinatToFolin (normalize s) = normalize s) :
    normalize (normalize s) = normalize s := by
  conv_lhs => rw [normalize_eq_removeShortWords, h5, hg, hp, hc]
  rw [normalize_eq_removeShortWords, removeShortWords_idem]

/-- Witness for claim C2: the hypotheses of the amended statement hold at
the concrete input `"Cisplatin"` and the conclusion follows. -/
theorem claim_C2_witness :
    normalize (normalize "Cisplatin".toList) = normalize "Cisplatin".toList :=
  claim_C2 "Cisplatin".toList (by decide) (by decide) (by decide) (by decide)

/-- Counterexample to claim C2 as stated: the full preprocessing pipeline is
not idempotent; on `"nab-Paclitaxel nab-Paclitaxel"` a single pass yields
`"Paclitaxel nab Paclitaxel nab"`, whose inner `"nab Paclitaxel"` is
rewritten again by the second pass. -/
theorem claim_C2_counterexample :
    normalize (normalize "nab-Paclitaxel nab-Paclitaxel".toList) ≠
      normalize "nab-Paclitaxel nab-Paclitaxel".toList := by
  decide

/-! ### Candidate Selector (`get_matches`, `src/utils.py` lines 62–111) -/

/-- A raw result of the external fuzzy matching capability for one record:
the matched text span, the canonical vocabulary entry, and the similarity
score on the 0–100 scale. -/
structure Cand where
  span : String
  entry : String
  score : ℚ
deriving DecidableEq

/-- The comparison used by `sorted(..., key=lambda x: x[3], reverse=True)`:
a stable sort with this relation is exactly Python's stable descending sort
by score. -/
def candLE (a b : Cand) : Prop := b.score ≤ a.score

instance : DecidableRel candLE := fun a b => inferInstanceAs (Decidable (b.score ≤ a.score))

instance : IsTotal Cand candLE := ⟨fun a b => le_total b.score a.score⟩

instance : IsTrans Cand candLE := ⟨fun _ _ _ h1 h2 => le_trans h2 h1⟩

/-- Bump the running count of one canonical entry by one. -/
def bumpCount (counts : String → Nat) (k : String) : String → Nat :=
  fun e => if e = k then counts k + 1 else counts e

/-- The keep loop of `get_matches` (lines 85–98): walk the sorted candidate
list with a per-entry running count; skip a candidate whose entry's count
has reached `maxPer`, otherwise keep it and increment only its own count. -/
def keepLoop (maxPer : Nat) : (String → Nat) → List Cand → List Cand
  | _, [] => []
  | counts, c :: cs =>
    if maxPer ≤ counts c.entry then keepLoop maxPer counts cs
    else c :: keepLoop maxPer (bumpCount counts c.entry) cs

/-- Per-record candidate selection in `get_matches` (lines 80–98): filter by
`m[3] >= threshold * 100`, stable-sort by similarity descending, then apply
the per-entry cap loop. -/
def selectCandidates (thr : ℚ) (maxPer : Nat) (ms : List Cand) : List Cand :=
  keepLoop maxPer (fun _ => 0)
    (List.insertionSort candLE (ms.filter (fun m => decide (thr * 100 ≤ m.score))))

theorem keepLoop_countP (maxPer : Nat) (e : String) :
    ∀ (ms : List Cand) (counts : String → Nat),
      counts e + (keepLoop maxPer counts ms).countP (fun c => c.entry == e) ≤
        max (counts e) maxPer := by
  intro ms
  induction ms with
  | nil => intro counts; simp [keepLoop]
  | cons c cs ih =>
    intro counts
    by_cases hskip : maxPer ≤ counts c.entry
    · rw [keepLoop, if_pos hskip]
      exact ih counts
    · rw [keepLoop, if_neg hskip]
      by_cases hce : c.entry = e
      · have hcnt : (keepLoop maxPer (bumpCount counts c.entry) cs).countP
            (fun c => c.entry == e) + 1 =
            ((c :: keepLoop maxPer (bumpCount counts c.entry) cs).countP
              (fun c => c.entry == e)) := by
          rw [List.countP_cons]
          simp [hce]
        have hb : bumpCount counts c.entry e = counts e + 1 := by
          simp [bumpCount, hce]
        have := ih (bumpCount counts c.entry)
        rw [hb] at this
        subst hce
        omega
      · have hcnt : ((c :: keepLoop maxPer (bumpCount counts c.entry) cs).countP
            (fun c => c.entry == e)) =
            (keepLoop maxPer (bumpCount counts c.entry) cs).countP
              (fun c => c.entry == e) := by
          rw [List.countP_cons]
          simp [hce]
        have hb : bumpCount counts c.entry e = counts e := by
          have hec : e ≠ c.entry := fun h => hce h.symm
          simp only [bumpCount]
          rw [if_neg hec]
        have := ih (bumpCount counts c.entry)
        rw [hb] at this
        omega

/-- Claim C4: for every record, threshold and cap, no canonical entry occurs
more than `maxPer` times among the candidates the Candidate Selector keeps. -/
theorem claim_C4 (thr : ℚ) (maxPer : Nat) (ms : List Cand) (e : String) :
    (selectCandidates thr maxPer ms).countP (fun c => c.entry == e) ≤ maxPer := by
  have h := keepLoop_countP maxPer e
    (List.insertionSort candLE (ms.filter (fun m => decide (thr * 100 ≤ m.score))))
    (fun _ => 0)
  simpa [selectCandidates] using h

theorem bumpCount_comm (counts : String → Nat) {a b : String} (h : a ≠ b) :
    bumpCount (bumpCount counts a) b = bumpCount (bumpCount counts b) a := by
  funext e
  have hab : b ≠ a := fun hba => h hba.symm
  by_cases hea : e = a
  · subst hea
    simp [bumpCount, h, hab]
  · by_cases heb : e = b
    · subst heb
      simp [bumpCount, h, hab, hea]
    · simp [bumpCount, hea, heb]

theorem keepLoop_length_bump (maxPer : Nat) :
    ∀ (ms : List Cand) (counts : String → Nat) (k : String),
      (keepLoop maxPer counts ms).length ≤
        (keepLoop maxPer (bumpCount counts k) ms).length + 1 := by
  intro ms
  induction ms with
  | nil => intro counts k; simp [keepLoop]
  | cons c cs ih =>
    intro counts k
    by_cases hck : c.entry = k
    · subst hck
      by_cases hskip : maxPer ≤ counts c.entry
      · rw [keepLoop, if_pos hskip, keepLoop, if_pos (by simp [bumpCount]; omega)]
        exact ih counts c.entry
      · rw [keepLoop, if_neg hskip]
        by_cases hskip2 : maxPer ≤ bumpCount counts c.entry c.entry
        · rw [keepLoop, if_pos hskip2]
          simp
        · rw [keepLoop, if_neg hskip2]
          simpa using ih (bumpCount counts c.entry) c.entry
    · have hbc : bumpCount counts k c.entry = counts c.entry := by
        simp [bumpCount, hck]
      by_cases hskip : maxPer ≤ counts c.entry
      · rw [keepLoop, if_pos hskip, keepLoop, if_pos (by rw [hbc]; exact hskip)]
        exact ih counts k
      · rw [keepLoop, if_neg hskip, keepLoop, if_neg (by rw [hbc]; exact hskip)]
        have := ih (bumpCount counts c.entry) k
        rw [show bumpCount (bumpCount counts k) c.entry =
            bumpCount (bumpCount counts c.entry) k from
          (bumpCount_comm counts (fun h => hck h.symm)).symm ▸
            bumpCount_comm counts (fun h => hck h.symm)]
        simpa using this

theorem keepLoop_length_cons (maxPer : Nat) (counts : String → Nat) (c : Cand)
    (cs : List Cand) :
    (keepLoop maxPer counts cs).length ≤ (keepLoop maxPer counts (c :: cs)).length := by
  by_cases hskip : maxPer ≤ counts c.entry
  · rw [keepLoop, if_pos hskip]
  · rw [keepLoop, if_neg hskip]
    have := keepLoop_length_bump maxPer cs counts c.entry
    simpa using this

theorem keepLoop_length_sublist (maxPer : Nat) {ms' ms : List Cand} (h : List.Sublist ms' ms) :
    ∀ counts : String → Nat,
      (keepLoop maxPer counts ms').length ≤ (keepLoop maxPer counts ms).length := by
  induction h with
  | slnil => intro counts; exact Nat.le_refl _
  | cons c h ih =>
    intro counts
    exact (ih counts).trans (keepLoop_length_cons maxPer counts c _)
  | cons₂ c h ih =>
    intro counts
    by_cases hskip : maxPer ≤ counts c.entry
    · rw [keepLoop, if_pos hskip, keepLoop, if_pos hskip]
      exact ih counts
    · rw [keepLoop, if_neg hskip, keepLoop, if_neg hskip]
      simpa using ih (bumpCount counts c.entry)

theorem insertionSort_sublist {l₁ l₂ : List Cand} (h : List.Sublist l₁ l₂) :
    List.Sublist (List.insertionSort candLE l₁) (List.insertionSort candLE l₂) := by
  induction h with
  | slnil => simp
  | cons a h ih =>
    exact ih.trans (List.sublist_orderedInsert a _)
  | cons₂ a h ih =>
    exact List.Sublist.orderedInsert_sublist a ih (List.sorted_insertionSort candLE _)

/-- Claim C8: raising the similarity threshold never increases the number of
candidates the Candidate Selector keeps for a fixed record and vocabulary. -/
theorem claim_C8 (ms : List Cand) (maxPer : Nat) (t1 t2 : ℚ) (h : t1 ≤ t2) :
    (selectCandidates t2 maxPer ms).length ≤ (selectCandidates t1 maxPer ms).length := by
  have hf : List.Sublist (ms.filter (fun m => decide (t2 * 100 ≤ m.score)))
      (ms.filter (fun m => decide (t1 * 100 ≤ m.score))) := by
    refine List.monotone_filter_right ms ?_
    intro a ha
    have h2 : t2 * 100 ≤ a.score := of_decide_eq_true ha
    have h1 : t1 * 100 ≤ a.score :=
      le_trans (by exact mul_le_mul_of_nonneg_right h (by norm_num)) h2
    simpa using h1
  exact keepLoop_length_sublist maxPer (insertionSort_sublist hf) _

/-- Witness for claim C8 at a concrete record: thresholds 0.85 and 0.9 over
three raw candidates. -/
theorem claim_C8_witness :
    ((0.85 : ℚ) ≤ 0.9) ∧
      (selectCandidates 0.9 2 [⟨"cisplatn", "Cisplatin", 88⟩,
        ⟨"gemcitabin", "Gemcitabin", 95⟩, ⟨"gemzitabin", "Gemcitabin", 91⟩]).length ≤
      (selectCandidates 0.85 2 [⟨"cisplatn", "Cisplatin", 88⟩,
        ⟨"gemcitabin", "Gemcitabin", 95⟩, ⟨"gemzitabin", "Gemcitabin", 91⟩]).length :=
  ⟨by norm_num,
    claim_C8 [⟨"cisplatn", "Cisplatin", 88⟩, ⟨"gemcitabin", "Gemcitabin", 95⟩,
      ⟨"gemzitabin", "Gemcitabin", 91⟩] 2 0.85 0.9 (by norm_num)⟩

/-! ### Multi-hit output rows and the two `get_matches` variants -/

/-- One multi-hit output row: the `Original` and `Preprocessed` columns plus
the numbered `(Hit_i, Mapped_to_i, Similarity_i)` triples in kept order. -/
structure RenderedRow where
  original : String
  preproc : String
  triples : List (String × String × ℚ)
deriving DecidableEq

/-- `get_matches` of `src/utils.py` (multi-hit): one output row per input
row; `Hit_i` receives the canonical entry (`match_id`) and `Mapped_to_i`
the matched span (`doc[start:end].text`), lines 93–94. -/
def getMatchesUtils (fuzz : String → List Cand) (thr : ℚ) (maxPer : Nat)
    (rows : List (String × String)) : List RenderedRow :=
  rows.map (fun p =>
    ⟨p.1, p.2, (selectCandidates thr maxPer (fuzz p.2)).map
      (fun c => (c.entry, c.span, c.score))⟩)

/-- `get_matches` of `src/src/spacy_matching/utils.py` (multi-hit): the same
pipeline, but `Hit_i` receives the matched span and `Mapped_to_i` the
canonical entry, lines 152–153. -/
def getMatchesPkg (fuzz : String → List Cand) (thr : ℚ) (maxPer : Nat)
    (rows : List (String × String)) : List RenderedRow :=
  rows.map (fun p =>
    ⟨p.1, p.2, (selectCandidates thr maxPer (fuzz p.2)).map
      (fun c => (c.span, c.entry, c.score))⟩)

/-- One atomic-mode output row: first-hit columns with suffix stripped;
an absent `Hit1`/`Mapped_to1`/`Similarity1` column or cell is `none`. -/
structure AtomicRow where
  original : String
  preproc : String
  hit : Option String
  mappedTo : Option String
  sim : Option ℚ
deriving DecidableEq

/-- Projection of one multi-hit row onto the atomic columns. -/
def atomicOf (r : RenderedRow) : AtomicRow :=
  ⟨r.original, r.preproc, r.triples.head?.map (fun t => t.1),
    r.triples.head?.map (fun t => t.2.1), r.triples.head?.map (fun t => t.2.2)⟩

/-- The `only_first_match` branch of `get_matches` in `src/utils.py`
(lines 104–109): the multi-hit table `out` is computed first and the atomic
table is obtained from it by column selection and suffix stripping. -/
def getMatchesUtilsAtomic (fuzz : String → List Cand) (thr : ℚ) (maxPer : Nat)
    (rows : List (String × String)) : List AtomicRow :=
  (getMatchesUtils fuzz thr maxPer rows).map atomicOf

/-- Modelled from the spec (§4.2): the atomic view as a pure restriction of
the multi-hit output to the columns Original, Preprocessed, Hit1,
Mapped_to1, Similarity1 (those that exist), numeric suffix stripped. -/
def atomicViewSpec (out : List RenderedRow) : List AtomicRow :=
  out.map atomicOf

/-- Claim C9: atomic mode is a pure view over the multi-hit result — it
equals the restriction of the multi-hit output to the first-hit columns and
performs no additional matching. -/
theorem claim_C9 (fuzz : String → List Cand) (thr : ℚ) (maxPer : Nat)
    (rows : List (String × String)) :
    getMatchesUtilsAtomic fuzz thr maxPer rows =
      atomicViewSpec (getMatchesUtils fuzz thr maxPer rows) := rfl

/-- Transposition of the first two components of every triple of a row. -/
def swapRow (r : RenderedRow) : RenderedRow :=
  ⟨r.original, r.preproc, r.triples.map (fun t => (t.2.1, t.1, t.2.2))⟩

/-- Claim C10: the two near-duplicate multi-hit implementations transpose
the `Hit_i`/`Mapped_to_i` columns of every kept candidate, and are not
output-equivalent whenever some kept candidate's span differs from its
canonical entry. -/
theorem claim_C10 :
    (∀ (fuzz : String → List Cand) (thr : ℚ) (maxPer : Nat)
        (rows : List (String × String)),
      getMatchesPkg fuzz thr maxPer rows =
        (getMatchesUtils fuzz thr maxPer rows).map swapRow) ∧
    getMatchesUtils (fun _ => [⟨"cisplatn", "Cisplatin", 90⟩]) 0.85 2 [("x", "x")] ≠
      getMatchesPkg (fun _ => [⟨"cisplatn", "Cisplatin", 90⟩]) 0.85 2 [("x", "x")] := by
  constructor
  · intro fuzz thr maxPer rows
    simp [getMatchesPkg, getMatchesUtils, swapRow, List.map_map]
  · decide

/-! ### Protocol Resolver: slot canonicalization and lookup join -/

/-- `sort_row` (`src/src/spacy_matching/utils.py` lines 275–287) applied to
a record's substance-slot values: drop nulls, sort the remaining names
lexicographically ascending, left-pack and pad with nulls to the slot
width. -/
def sortRowSlots (w : Nat) (slots : List (Option String)) : List (Option String) :=
  let v := List.insertionSort (· ≤ ·) (slots.filterMap id)
  v.map some ++ List.replicate (w - v.length) none

/-- Claim C5: protocol slot canonicalization is order-independent — two slot
rows holding the same multiset of substance names canonicalize to the same
fixed-width slot tuple. -/
theorem claim_C5 (w : Nat) (l l' : List (Option String))
    (h : List.Perm (l.filterMap id) (l'.filterMap id)) :
    sortRowSlots w l = sortRowSlots w l' := by
  have hsort : List.insertionSort (· ≤ ·) (l.filterMap id) =
      List.insertionSort (· ≤ ·) (l'.filterMap id) := by
    refine List.eq_of_perm_of_sorted ?_ (List.sorted_insertionSort _ _)
      (List.sorted_insertionSort _ _)
    exact (List.perm_insertionSort _ _).trans (h.trans (List.perm_insertionSort _ _).symm)
  rw [sortRowSlots, sortRowSlots, hsort]

/-- Witness for claim C5: the substances {Gemcitabin, Cisplatin} discovered
in either order canonicalize to the same seven-wide slot tuple. -/
theorem claim_C5_witness :
    sortRowSlots 7 [some "Gemcitabin", some "Cisplatin", none, none, none, none, none] =
      sortRowSlots 7 [some "Cisplatin", some "Gemcitabin", none, none, none, none, none] :=
  claim_C5 7 _ _ (by decide)

/-- One row of the protocol reference table: the protocol code and its
substance-slot columns. -/
structure RefRow where
  code : String
  slots : List (Option String)
deriving DecidableEq

/-- `merge_frame` (`src/src/spacy_matching/utils.py` lines 334–374): sort
the reference table's slot columns, left-join the data on the full slot
tuple (a missing match leaves the code null; `NaN` keys match `NaN` keys as
pandas merge does), then force `code` to null on every row whose join-key
slots are all null or the literal string `"NaN"` (lines 371–372). -/
def mergeFrame (data : List (List (Option String))) (refs : List RefRow) (w : Nat) :
    List (List (Option String) × Option String) :=
  let refsSorted := refs.map (fun r => RefRow.mk r.code (sortRowSlots w r.slots))
  let joined := data.flatMap (fun d =>
    let ms := refsSorted.filter (fun r => r.slots == d)
    if ms.isEmpty then [(d, none)]
    else ms.map (fun r => (d, some r.code)))
  joined.map (fun p =>
    if p.1.all (fun s => s == none || s == some "NaN") then (p.1, none) else p)

/-- Claim C6: every joined row whose slot key is all-null (or all-`"NaN"`)
carries a null protocol code — even when the reference table contains an
all-null-key row. -/
theorem claim_C6 (data : List (List (Option String))) (refs : List RefRow) (w : Nat)
    (d : List (Option String)) (code : Option String)
    (hmem : (d, code) ∈ mergeFrame data refs w)
    (hnull : d.all (fun s => s == none || s == some "NaN") = true) :
    code = none := by
  rw [mergeFrame] at hmem
  rcases List.mem_map.mp hmem with ⟨p, _, hp⟩
  by_cases hmask : p.1.all (fun s => s == none || s == some "NaN") = true
  · rw [if_pos hmask] at hp
    exact (Prod.mk.injEq _ _ _ _ ▸ hp).2.symm ▸ rfl
  · rw [if_neg hmask] at hp
    subst hp
    exact absurd hnull hmask

/-- Witness for claim C6: a record with two all-null slots joined against a
reference table containing a spurious all-null-key row still gets a null
code. -/
theorem claim_C6_witness :
    ([none, none], (none : Option String)) ∈
      mergeFrame [[none, none]] [⟨"SPURIOUS", [none, none]⟩] 2 ∧
    (([none, none] : List (Option String)).all
      (fun s => s == none || s == some "NaN") = true) ∧
    (none : Option String) = none :=
  ⟨by decide, by decide,
    claim_C6 [[none, none]] [⟨"SPURIOUS", [none, none]⟩] 2 [none, none] none
      (by decide) (by decide)⟩

/-! ### Legacy pipeline: old `get_matches` and the Match Collapser
(`src/archive/utils_old.py`) -/

/-- One row of the old `get_matches` result table (lines 212–234): record
id, the (preprocessed) input text, the matched span (`match`), the
canonical entry (`matched_to`) and the stringified similarity (empty when
no match was found). -/
structure MRow where
  ID : Nat
  input : String
  found : String
  matchedTo : String
  sim : String
deriving DecidableEq, Inhabited

/-- Ordering of result rows by record id, for `sort_values(by="ID")`. -/
def rowLE (a b : MRow) : Prop := a.ID ≤ b.ID

instance : DecidableRel rowLE := fun a b => inferInstanceAs (Decidable (a.ID ≤ b.ID))

instance : IsTotal MRow rowLE := ⟨fun a b => Nat.le_total a.ID b.ID⟩

instance : IsTrans MRow rowLE := ⟨fun _ _ _ => Nat.le_trans⟩

/-- `sort_values(by="ID")`: stable ascending sort by record id. -/
def sortById (l : List MRow) : List MRow := List.insertionSort rowLE l

/-- Record ids assigned by input order, `range(1, len(input_col) + 1)` of
`prepare_free_text`, paired with each record's text. -/
def prepareIds (i : Nat) : List String → List (Nat × String)
  | [] => []
  | t :: ts => (i, t) :: prepareIds (i + 1) ts

/-- The rows old `get_matches` emits for one record (lines 210–234): one
row per fuzzy hit whose score is strictly above the threshold, or a single
row with empty match fields when there is none. -/
def oldRowsFor (fuzz : String → List Cand) (thr : ℚ) (p : Nat × String) : List MRow :=
  if ((fuzz p.2).filter (fun m => decide (thr < m.score))).isEmpty
  then [⟨p.1, p.2, "", "", ""⟩]
  else ((fuzz p.2).filter (fun m => decide (thr < m.score))).map
    (fun m => ⟨p.1, p.2, m.span, m.entry, toString m.score⟩)

/-- Old `get_matches` (lines 180–238): the per-record rows concatenated in
input order, then sorted by ID. -/
def getMatchesOld (fuzz : String → List Cand) (thr : ℚ)
    (rows : List (Nat × String)) : List MRow :=
  sortById (rows.flatMap (oldRowsFor fuzz thr))

/-- Character-level Levenshtein distance (`Levenshtein.distance`). -/
def levDist : Chars → Chars → Nat
  | [], t => t.length
  | s, [] => s.length
  | a :: s, b :: t =>
    if a = b then levDist s t
    else 1 + min (levDist (a :: s) t) (min (levDist s (b :: t)) (levDist s t))
termination_by s t => s.length + t.length
decreasing_by
  all_goals simp [List.length_cons]
  all_goals omega

/-- Lowercased character list of a string (Python `.lower()`). -/
def lowerStr (s : String) : Chars := s.toList.map Char.toLower

/-- The `exact_match` column (lines 291–293): input equals the canonical
entry verbatim. -/
def exactMatch (r : MRow) : Bool := r.input == r.matchedTo

/-- The `detected_match` column (lines 295–297): lower-cased input occurs
inside the lower-cased canonical entry. -/
def detectedMatch (r : MRow) : Bool := decide (List.IsInfix (lowerStr r.input) (lowerStr r.matchedTo))

/-- The `LV_distance` column (lines 299–302). -/
def rowLV (r : MRow) : Nat := levDist r.input.toList r.matchedTo.toList

/-- `idxmin` selection: the first row attaining the minimal Levenshtein
distance. -/
def argminLV : List MRow → MRow
  | [] => default
  | [r] => r
  | r :: r2 :: rs =>
    let m := argminLV (r2 :: rs)
    if rowLV r ≤ rowLV m then r else m

/-- `select_best_rows` (lines 241–260): the first exact match if any, else
the first containment match, else the first row of minimal edit distance. -/
def selectBestRows (g : List MRow) : MRow :=
  match g.filter exactMatch with
  | r :: _ => r
  | [] =>
    match g.filter detectedMatch with
    | r :: _ => r
    | [] => argminLV g

/-- Claim C3: in the tie-break, whenever some candidate's canonical entry
equals the record's (preprocessed) input text verbatim, the first such
candidate is selected, regardless of every similarity field. -/
theorem claim_C3 (pre post : List MRow) (r : MRow)
    (hr : r.input = r.matchedTo)
    (hpre : ∀ x ∈ pre, x.input ≠ x.matchedTo) :
    selectBestRows (pre ++ r :: post) = r := by
  have hfil : (pre ++ r :: post).filter exactMatch = r :: post.filter exactMatch := by
    rw [List.filter_append, List.filter_cons_of_pos (by simp [exactMatch, hr]),
      List.filter_eq_nil_iff.mpr (fun x hx => by simp [exactMatch, hpre x hx]),
      List.nil_append]
  unfold selectBestRows
  rw [hfil]

/-- Witness for claim C3: input `"Cisplatin"` with candidates
`("Cisplatin", 80)` and `("Cisplatin Mono", 95)` selects the exact match
despite its lower score. -/
theorem claim_C3_witness :
    selectBestRows
      [⟨1, "Cisplatin", "Cisplatin", "Cisplatin", "80"⟩,
       ⟨1, "Cisplatin", "Cisplatin", "Cisplatin Mono", "95"⟩] =
      ⟨1, "Cisplatin", "Cisplatin", "Cisplatin", "80"⟩ :=
  claim_C3 [] [⟨1, "Cisplatin", "Cisplatin", "Cisplatin Mono", "95"⟩]
    ⟨1, "Cisplatin", "Cisplatin", "Cisplatin", "80"⟩ rfl (by simp)

/-- `"; ".join`. -/
def joinSemi : List String → String
  | [] => ""
  | [s] => s
  | s :: s' :: ss => s ++ "; " ++ joinSemi (s' :: ss)

/-- `dict.fromkeys`: de-duplicate a list by value, keeping the first
occurrence of each value and preserving order. -/
def dedupKeepFirst {α : Type} [DecidableEq α] : List α → List α
  | [] => []
  | x :: xs => x :: (dedupKeepFirst xs).filter (fun y => decide (y ≠ x))

/-- One collapsed output row of `select_matches`. -/
structure CRow where
  ID : Nat
  input : String
  found : String
  matchedTo : String
  sim : String
deriving DecidableEq, Inhabited

/-- The groupby aggregation of `select_matches` (lines 314–329): `input`
takes the group's first value, `match` joins all values with `; `, and
`matched_to` / `similarity` each join with `; ` after `dict.fromkeys`
de-duplication of their own values. -/
def collapseGroup (i : Nat) (g : List MRow) : CRow :=
  ⟨i, ((g.head?).map MRow.input).getD "",
    joinSemi (g.map MRow.found),
    joinSemi (dedupKeepFirst (g.map MRow.matchedTo)),
    joinSemi (dedupKeepFirst (g.map MRow.sim))⟩

/-- Claim C7, as amended: in the aggregation, `match` values are joined
with `; `; `matched_to` values are joined after de-duplication by value
(the canonical entry), first occurrence winning; `similarity` values are
joined after de-duplication by the similarity value itself — so two
candidates with distinct canonical entries but equal similarity contribute
only one similarity value. -/
theorem claim_C7 (i : Nat) (r1 r2 : MRow) (hmt : r1.matchedTo ≠ r2.matchedTo)
    (hsim : r1.sim = r2.sim) :
    collapseGroup i [r1, r2] =
      ⟨i, r1.input, r1.found ++ "; " ++ r2.found,
        r1.matchedTo ++ "; " ++ r2.matchedTo, r1.sim⟩ := by
  have h21 : r2.matchedTo ≠ r1.matchedTo := fun h => hmt h.symm
  simp [collapseGroup, dedupKeepFirst, joinSemi, hsim, h21]

/-- Witness for claim C7's amended statement at concrete rows with distinct
entries `A`, `B` and the equal similarity string `95`. -/
theorem claim_C7_witness :
    collapseGroup 2 [⟨2, "X", "a", "A", "95"⟩, ⟨2, "X", "b", "B", "95"⟩] =
      ⟨2, "X", "a; b", "A; B", "95"⟩ :=
  (claim_C7 2 ⟨2, "X", "a", "A", "95"⟩ ⟨2, "X", "b", "B", "95"⟩
    (by decide) (by decide)).trans (by decide)

/-- Counterexample to claim C7 as stated: two candidates with distinct
canonical entries (`A`, `B`) and equal similarity `95` contribute a single
`95` to the aggregated similarity field, not `95; 95` — the code
de-duplicates the similarity column by its own values, not by canonical
entry. -/
theorem claim_C7_counterexample :
    (collapseGroup 1 [⟨1, "X", "a", "A", "95"⟩, ⟨1, "X", "b", "B", "95"⟩]).matchedTo
        = "A; B" ∧
      (collapseGroup 1 [⟨1, "X", "a", "A", "95"⟩, ⟨1, "X", "b", "B", "95"⟩]).sim
        ≠ "95; 95" ∧
      (collapseGroup 1 [⟨1, "X", "a", "A", "95"⟩, ⟨1, "X", "b", "B", "95"⟩]).sim
        = "95" := by
  refine ⟨by decide, by decide, by decide⟩

/-! ### `select_matches` (lines 263–331) and the completeness invariant -/

/-- Ascending sort of a list of ids (pandas `groupby` sorts group keys). -/
def sortNat (l : List Nat) : List Nat := List.insertionSort (· ≤ ·) l

/-- The distinct record ids of a result table in ascending order: the group
keys of `groupby("ID")`. -/
def gbIds (l : List MRow) : List Nat := sortNat (dedupKeepFirst (l.map MRow.ID))

/-- Ordering of collapsed rows by record id. -/
def crowLE (a b : CRow) : Prop := a.ID ≤ b.ID

instance : DecidableRel crowLE := fun a b => inferInstanceAs (Decidable (a.ID ≤ b.ID))

instance : IsTotal CRow crowLE := ⟨fun a b => Nat.le_total a.ID b.ID⟩

instance : IsTrans CRow crowLE := ⟨fun _ _ _ => Nat.le_trans⟩

/-- The final `sort_values(by="ID")` of `select_matches`. -/
def sortByIdC (l : List CRow) : List CRow := List.insertionSort crowLE l

/-- `df_with_pattern` (lines 279–283): the rows whose input does not match
the split-indicator pattern. -/
def smNoPat (splitP : String → Bool) (rows : List MRow) : List MRow :=
  rows.filter (fun r => !splitP r.input)

/-- `select_df` (lines 285–290): the pattern-free rows whose id carries more
than one candidate, in id order (stable). -/
def smMulti (splitP : String → Bool) (rows : List MRow) : List MRow :=
  sortById ((smNoPat splitP rows).filter
    (fun r => decide (1 < (smNoPat splitP rows).countP (fun x => x.ID == r.ID))))

/-- `best_matches` (lines 303–308): one tie-break winner per group of
`select_df`. -/
def smBest (splitP : String → Bool) (rows : List MRow) : List MRow :=
  (gbIds (smMulti splitP rows)).map
    (fun i => selectBestRows ((smMulti splitP rows).filter (fun r => r.ID == i)))

/-- `results_df` (lines 310–312): the untouched rows (ids outside the
tie-break) concatenated with the winners. -/
def smResults (splitP : String → Bool) (rows : List MRow) : List MRow :=
  rows.filter (fun r => !decide (r.ID ∈ (smBest splitP rows).map MRow.ID)) ++
    smBest splitP rows

/-- `select_matches` (lines 263–331): exclude split-pattern rows, tie-break
ids with several candidates, re-merge with the remaining rows, aggregate
per id, and sort by id. -/
def selectMatches (splitP : String → Bool) (rows : List MRow) : List CRow :=
  sortByIdC ((gbIds (smResults splitP rows)).map
    (fun i => collapseGroup i ((smResults splitP rows).filter (fun r => r.ID == i))))

/-- `prepare_free_text` in `src/utils.py`: missing input or the empty string
becomes the sentinel `"NA"`; the value is then whitespace-stripped. -/
def prepOriginal (s : Option String) : String :=
  String.mk (stripWs (match s with
    | none => "NA".toList
    | some t => if t = "" then "NA".toList else t.toList))

/-- `preprocess_data` in `src/utils.py`: pair every prepared original with
its normalized text, one row per input row. -/
def preprocessData (inputs : List (Option String)) : List (String × String) :=
  inputs.map (fun s => (prepOriginal s, String.mk (normalize (prepOriginal s).toList)))

theorem mem_dedupKeepFirst {α : Type} [DecidableEq α] (a : α) :
    ∀ l : List α, a ∈ dedupKeepFirst l ↔ a ∈ l := by
  intro l
  induction l with
  | nil => simp [dedupKeepFirst]
  | cons x xs ih =>
    by_cases hax : a = x
    · simp [dedupKeepFirst, hax]
    · simp [dedupKeepFirst, hax, List.mem_filter, ih]

theorem nodup_dedupKeepFirst {α : Type} [DecidableEq α] :
    ∀ l : List α, (dedupKeepFirst l).Nodup := by
  intro l
  induction l with
  | nil => simp [dedupKeepFirst]
  | cons x xs ih =>
    rw [dedupKeepFirst]
    refine List.Nodup.cons ?_ (ih.filter _)
    intro hx
    have := (List.mem_filter.mp hx).2
    simp at this

theorem mem_gbIds {a : Nat} {l : List MRow} : a ∈ gbIds l ↔ a ∈ l.map MRow.ID := by
  rw [gbIds, sortNat]
  rw [(List.perm_insertionSort _ _).mem_iff]
  exact mem_dedupKeepFirst a _

theorem nodup_gbIds (l : List MRow) : (gbIds l).Nodup := by
  rw [gbIds, sortNat]
  exact (List.perm_insertionSort _ _).nodup_iff.mpr (nodup_dedupKeepFirst _)

theorem sorted_gbIds (l : List MRow) : List.Sorted (· ≤ ·) (gbIds l) :=
  List.sorted_insertionSort _ _

theorem argminLV_mem : ∀ (g : List MRow), g ≠ [] → argminLV g ∈ g := by
  intro g
  induction g with
  | nil => intro h; exact absurd rfl h
  | cons r rs ih =>
    intro _
    cases rs with
    | nil => simp [argminLV]
    | cons r2 rs' =>
      rw [argminLV]
      by_cases hle : rowLV r ≤ rowLV (argminLV (r2 :: rs'))
      · simp [hle]
      · simp only [if_neg hle]
        exact List.mem_cons_of_mem r (ih (by simp))

theorem selectBestRows_mem (g : List MRow) (hg : g ≠ []) : selectBestRows g ∈ g := by
  unfold selectBestRows
  cases hfe : g.filter exactMatch with
  | cons r t =>
    have : r ∈ g.filter exactMatch := by rw [hfe]; exact List.mem_cons_self r t
    exact List.mem_of_mem_filter this
  | nil =>
    cases hfd : g.filter detectedMatch with
    | cons r t =>
      have : r ∈ g.filter detectedMatch := by rw [hfd]; exact List.mem_cons_self r t
      exact List.mem_of_mem_filter this
    | nil => exact argminLV_mem g hg

theorem id_of_mem_filter_id {r : MRow} {l : List MRow} {i : Nat}
    (h : r ∈ l.filter (fun x => x.ID == i)) : r.ID = i := by
  have := (List.mem_filter.mp h).2
  simpa using this

theorem smBest_id {splitP : String → Bool} {rows : List MRow} {i : Nat}
    (hi : i ∈ gbIds (smMulti splitP rows)) :
    (selectBestRows ((smMulti splitP rows).filter (fun r => r.ID == i))).ID = i := by
  have hmem : i ∈ (smMulti splitP rows).map MRow.ID := mem_gbIds.mp hi
  rcases List.mem_map.mp hmem with ⟨r, hr, hid⟩
  have hrf : r ∈ (smMulti splitP rows).filter (fun x => x.ID == i) :=
    List.mem_filter.mpr ⟨hr, by simpa using hid⟩
  exact id_of_mem_filter_id
    (selectBestRows_mem _ (List.ne_nil_of_mem hrf))

theorem mem_smResults_id (splitP : String → Bool) (rows : List MRow) (a : Nat) :
    a ∈ (smResults splitP rows).map MRow.ID ↔ a ∈ rows.map MRow.ID := by
  constructor
  · intro h
    rw [smResults, List.map_append, List.mem_append] at h
    rcases h with h | h
    · rcases List.mem_map.mp h with ⟨r, hr, rfl⟩
      exact List.mem_map.mpr ⟨r, List.mem_of_mem_filter hr, rfl⟩
    · rcases List.mem_map.mp h with ⟨r, hr, rfl⟩
      rw [smBest] at hr
      rcases List.mem_map.mp hr with ⟨i, hi, rfl⟩
      rw [smBest_id hi]
      have h1 : i ∈ (smMulti splitP rows).map MRow.ID := mem_gbIds.mp hi
      rcases List.mem_map.mp h1 with ⟨r', hr', rfl⟩
      rw [smMulti, sortById] at hr'
      have hr'' := (List.perm_insertionSort rowLE _).mem_iff.mp hr'
      exact List.mem_map.mpr
        ⟨r', List.mem_of_mem_filter (List.mem_of_mem_filter hr''), rfl⟩
  · intro h
    rcases List.mem_map.mp h with ⟨r, hr, rfl⟩
    by_cases hbest : r.ID ∈ (smBest splitP rows).map MRow.ID
    · rw [smResults, List.map_append, List.mem_append]
      exact Or.inr hbest
    · rw [smResults, List.map_append, List.mem_append]
      refine Or.inl (List.mem_map.mpr ⟨r, List.mem_filter.mpr ⟨hr, ?_⟩, rfl⟩)
      simpa using hbest

theorem selectMatches_map_id (splitP : String → Bool) (rows : List MRow) :
    (selectMatches splitP rows).map CRow.ID = gbIds (smResults splitP rows) := by
  have hmap : ((gbIds (smResults splitP rows)).map
      (fun i => collapseGroup i
        ((smResults splitP rows).filter (fun r => r.ID == i)))).map CRow.ID =
      gbIds (smResults splitP rows) := by
    rw [List.map_map]
    have hcomp : CRow.ID ∘ (fun i => collapseGroup i
        ((smResults splitP rows).filter (fun r => r.ID == i))) = id := by
      funext i
      rfl
    rw [hcomp, List.map_id]
  have hsorted : List.Sorted crowLE ((gbIds (smResults splitP rows)).map
      (fun i => collapseGroup i
        ((smResults splitP rows).filter (fun r => r.ID == i)))) := by
    refine List.pairwise_map.mpr ?_
    exact (sorted_gbIds (smResults splitP rows)).imp (fun h => h)
  rw [selectMatches, sortByIdC, hsorted.insertionSort_eq, hmap]

theorem oldRowsFor_id {fuzz : String → List Cand} {thr : ℚ} {p : Nat × String}
    {r : MRow} (h : r ∈ oldRowsFor fuzz thr p) : r.ID = p.1 := by
  rw [oldRowsFor] at h
  by_cases hms : ((fuzz p.2).filter (fun m => decide (thr < m.score))).isEmpty
  · rw [if_pos hms] at h
    simp at h
    rw [h]
  · rw [if_neg hms] at h
    rcases List.mem_map.mp h with ⟨m, _, rfl⟩
    rfl

theorem oldRowsFor_ne_nil (fuzz : String → List Cand) (thr : ℚ) (p : Nat × String) :
    oldRowsFor fuzz thr p ≠ [] := by
  rw [oldRowsFor]
  by_cases hms : ((fuzz p.2).filter (fun m => decide (thr < m.score))).isEmpty
  · rw [if_pos hms]
    simp
  · rw [if_neg hms]
    simp only [ne_eq, List.map_eq_nil_iff]
    intro hnil
    exact hms (by rw [hnil]; rfl)

theorem mem_getMatchesOld_id (fuzz : String → List Cand) (thr : ℚ)
    (prows : List (Nat × String)) (a : Nat) :
    a ∈ (getMatchesOld fuzz thr prows).map MRow.ID ↔ a ∈ prows.map Prod.fst := by
  rw [getMatchesOld, sortById]
  rw [((List.perm_insertionSort rowLE _).map MRow.ID).mem_iff]
  constructor
  · intro h
    rcases List.mem_map.mp h with ⟨r, hr, rfl⟩
    rcases List.mem_flatMap.mp hr with ⟨p, hp, hrp⟩
    exact List.mem_map.mpr ⟨p, hp, (oldRowsFor_id hrp).symm⟩
  · intro h
    rcases List.mem_map.mp h with ⟨p, hp, rfl⟩
    obtain ⟨r, hr⟩ := List.exists_mem_of_ne_nil _ (oldRowsFor_ne_nil fuzz thr p)
    exact List.mem_map.mpr ⟨r, List.mem_flatMap.mpr ⟨p, hp, hr⟩, oldRowsFor_id hr⟩

theorem prepareIds_map_fst : ∀ (i : Nat) (ts : List String),
    (prepareIds i ts).map Prod.fst = List.range' i ts.length := by
  intro i ts
  induction ts generalizing i with
  | nil => rfl
  | cons t ts ih =>
    rw [prepareIds, List.map_cons, List.length_cons, List.range'_succ, ih]

theorem sorted_le_range' (s n : Nat) : List.Sorted (· ≤ ·) (List.range' s n) :=
  (List.pairwise_lt_range' s n).imp le_of_lt

theorem sorted_nodup_ext {l₁ l₂ : List Nat} (s₁ : List.Sorted (· ≤ ·) l₁)
    (s₂ : List.Sorted (· ≤ ·) l₂) (n₁ : l₁.Nodup) (n₂ : l₂.Nodup)
    (h : ∀ a, a ∈ l₁ ↔ a ∈ l₂) : l₁ = l₂ :=
  List.eq_of_perm_of_sorted ((List.perm_ext_iff_of_nodup n₁ n₂).mpr h) s₁ s₂

/-- Claim C1: one output row per input row in `get_matches`, and the id set
of `select_matches`'s output is exactly the input id set 1..N, each id
exactly once (in ascending order). -/
theorem claim_C1 (splitP : String → Bool) (fuzzN fuzzO : String → List Cand)
    (prepO : String → String) (thrN thrO : ℚ) (maxPer : Nat)
    (inputs : List (Option String)) :
    (getMatchesUtils fuzzN thrN maxPer (preprocessData inputs)).length = inputs.length ∧
    (selectMatches splitP (getMatchesOld fuzzO thrO
        (prepareIds 1 (inputs.map (fun s => prepO (prepOriginal s)))))).map CRow.ID =
      List.range' 1 inputs.length := by
  constructor
  · simp [getMatchesUtils, preprocessData]
  · rw [selectMatches_map_id]
    refine sorted_nodup_ext (sorted_gbIds _) (sorted_le_range' 1 _) (nodup_gbIds _)
      (List.nodup_range' 1 _) ?_
    intro a
    rw [mem_gbIds, mem_smResults_id, mem_getMatchesOld_id, prepareIds_map_fst]
    simp

end SpacyMatching
